import Mathlib

/-!
Verification of the overlap-aware distributed block-vector synchronization
layer (`Ewoms::Linear::OverlappingBlockVector`, file
`ewoms/linear/overlappingblockvector.hh`).

The vector of numeric blocks is modelled as a `List Int` indexed by the
domestic index space; a block is collapsed to a single integer value, which
preserves all the index/merge logic under scrutiny.  The read-only `Overlap`
descriptor is an external collaborator and is modelled as a structure of the
functions the code calls on it.  MPI transfers are modelled by explicit value
lists: the receive phase of each synchronization variant takes, for every
peer, the list of values that arrived from that peer; in the whole-world
model (`syncOnce`) those lists are computed from the sending peers' states
exactly as `sendEntries_` produces them.
-/

namespace OverlapVec

/-- The overlap descriptor consumed by `OverlappingBlockVector` (external
collaborator; the fields are the member functions the vector calls on it).
Domestic/native/global indices are `Int` because the C++ code passes them
around as `int` and uses negative values as "no counterpart" sentinels. -/
structure Overlap where
  numDomestic : Nat
  numNative : Nat
  domesticToNative : Int → Int
  nativeToDomestic : Int → Int
  domesticToGlobal : Int → Int
  globalToDomestic : Int → Int
  peerSet : List Nat
  foreignOverlapSize : Nat → Nat
  foreignOverlapOffsetToDomesticIdx : Nat → Nat → Int
  masterRank : Int → Nat
  isBorderWith : Int → Nat → Bool
  isLocal : Int → Bool

/-- Read entry `i` of a block vector (`(*this)[i]`); indices are `Int`
as in the source, out-of-domain reads default to `0`. -/
def vecGet (x : List Int) (i : Int) : Int :=
  x.getD i.toNat 0

/-- Write entry `i` of a block vector (`(*this)[i] = v`). -/
def vecSet (x : List Int) (i : Int) (v : Int) : List Int :=
  x.set i.toNat v

/-- The local copy loop shared by `assign` and `assignAddBorder`: for every
domestic row, copy from the native vector when `domesticToNative` is
non-negative, else zero-initialize. -/
def assignLocal (ov : Overlap) (native : List Int) : List Int :=
  (List.range ov.numDomestic).map fun d =>
    if ov.domesticToNative (Int.ofNat d) < 0 then 0
    else native.getD (ov.domesticToNative (Int.ofNat d)).toNat 0

/-- `assignTo(nativeBlockVector)`: resize the target to `numNative()` and for
every native row copy from the corresponding domestic row, zero-filling rows
without a domestic counterpart.  The method is `const` (it reads `*this` and
only writes the target), so it is embedded as a pure function producing the
native vector. -/
def assignTo (ov : Overlap) (x : List Int) : List Int :=
  (List.range ov.numNative).map fun n =>
    if ov.nativeToDomestic (Int.ofNat n) < 0 then 0
    else vecGet x (ov.nativeToDomestic (Int.ofNat n))

/-- The receive-side translation loop of `createBuffers_`: the global indices
received from a peer are translated by `globalToDomestic` and stored back,
with no check of the result. -/
def translateRecvIndices (ov : Overlap) (globalIdxs : List Int) : List Int :=
  globalIdxs.map ov.globalToDomestic

/-- Modelled from the spec (§4.1/§7), for comparison with
`translateRecvIndices`: the abort-on-untranslatable-index behaviour the spec
describes.  If a received global index has no domestic counterpart (negative
translation) the construction fails with a diagnostic carrying the offending
peer rank and global index; otherwise the translated plan is produced. -/
def translateRecvIndicesChecked (ov : Overlap) (peerRank : Nat) :
    List Int → Except (Nat × Int) (List Int)
  | [] => .ok []
  | g :: gs =>
    let d := ov.globalToDomestic g
    if d < 0 then .error (peerRank, g)
    else
      match translateRecvIndicesChecked ov peerRank gs with
      | .error e => .error e
      | .ok rest => .ok (d :: rest)

/-- The global indices a process sends to `peerRank` during
`createBuffers_`: the `domesticToGlobal` image of its foreign-overlap rows
for that peer, in offset order. -/
def sendGlobalIndices (ov : Overlap) (peerRank : Nat) : List Int :=
  (List.range (ov.foreignOverlapSize peerRank)).map fun i =>
    ov.domesticToGlobal (ov.foreignOverlapOffsetToDomesticIdx peerRank i)

/-- The final contents of `indicesSendBuff_[peerRank]`: after the sends
complete, `createBuffers_` converts the buffered global indices back to
domestic ones via `globalToDomestic`. -/
def indicesSendBuffOf (ov : Overlap) (peerRank : Nat) : List Int :=
  (sendGlobalIndices ov peerRank).map ov.globalToDomestic

/-- The final contents of `indicesRecvBuff_[peerRank]` on process `myRank`
with descriptor `ovSelf`, given the peer's descriptor `ovPeer`: the peer
sends its global index list for `myRank`, which the receiver translates via
its own `globalToDomestic` (`translateRecvIndices`). -/
def indicesRecvBuffOf (ovSelf ovPeer : Overlap) (myRank : Nat) : List Int :=
  translateRecvIndices ovSelf (sendGlobalIndices ovPeer myRank)

/-- `sendEntries_(peerRank)`: the value payload shipped to a peer is the
current vector read at the send-plan indices, in plan order. -/
def sendEntries (ov : Overlap) (x : List Int) (peerRank : Nat) : List Int :=
  (indicesSendBuffOf ov peerRank).map fun i => vecGet x i

/-- `receiveFromMaster_(peerRank)`: walk the received values in plan order
and overwrite the local domestic row only when the sending peer is that
row's master rank. -/
def receiveFromMaster (ov : Overlap) (peerRank : Nat)
    (indices values : List Int) (x : List Int) : List Int :=
  (indices.zip values).foldl
    (fun acc iv =>
      if ov.masterRank iv.1 = peerRank then vecSet acc iv.1 iv.2 else acc) x

/-- `receiveAddBorder_(peerRank)`: rows on the border with this particular
peer accumulate the incoming value, all other targeted rows are
overwritten. -/
def receiveAddBorder (ov : Overlap) (peerRank : Nat)
    (indices values : List Int) (x : List Int) : List Int :=
  (indices.zip values).foldl
    (fun acc iv =>
      if ov.isBorderWith iv.1 peerRank then
        vecSet acc iv.1 (vecGet acc iv.1 + iv.2)
      else vecSet acc iv.1 iv.2) x

/-- `receiveAdd_(peerRank)`: every incoming value is added to the targeted
row, unconditionally. -/
def receiveAdd (ov : Overlap) (peerRank : Nat)
    (indices values : List Int) (x : List Int) : List Int :=
  (indices.zip values).foldl
    (fun acc iv => vecSet acc iv.1 (vecGet acc iv.1 + iv.2)) x

/-- The receive loop of `sync()`: process the peers of the peer set in
order, merging each peer's payload with `receiveFromMaster_`.  `recvIdx p`
is the (construction-time) receive plan for peer `p` and `recvVals p` the
values that arrived from `p`. -/
def syncRecvPhase (ov : Overlap) (recvIdx recvVals : Nat → List Int)
    (x : List Int) : List Int :=
  ov.peerSet.foldl
    (fun acc p => receiveFromMaster ov p (recvIdx p) (recvVals p) acc) x

/-- The receive loop of `syncAddBorder()`. -/
def syncAddBorderRecvPhase (ov : Overlap) (recvIdx recvVals : Nat → List Int)
    (x : List Int) : List Int :=
  ov.peerSet.foldl
    (fun acc p => receiveAddBorder ov p (recvIdx p) (recvVals p) acc) x

/-- The receive loop of `syncAdd()`. -/
def syncAddRecvPhase (ov : Overlap) (recvIdx recvVals : Nat → List Int)
    (x : List Int) : List Int :=
  ov.peerSet.foldl
    (fun acc p => receiveAdd ov p (recvIdx p) (recvVals p) acc) x

/-- One whole-world `sync()` round: every process sends its current values
(`sendEntries_` runs before any receive, so payloads are pre-call values)
and then runs its receive loop.  `ov r` is the descriptor and `vec r` the
vector of the process of rank `r`. -/
def syncOnce (ov : Nat → Overlap) (vec : Nat → List Int) :
    Nat → List Int :=
  fun r =>
    syncRecvPhase (ov r)
      (fun p => indicesRecvBuffOf (ov r) (ov p) r)
      (fun p => sendEntries (ov p) (vec p) r)
      (vec r)

/-- Whole-world `assign()` followed by the `sync()` it triggers: every
process copies its native vector locally, then one `sync()` round runs. -/
def assignSyncAll (ov : Nat → Overlap) (native : Nat → List Int) :
    Nat → List Int :=
  syncOnce ov fun m => assignLocal (ov m) (native m)

/-- The domestic index under which the master process of a row stores its
copy of that row: translate the local domestic index to the global one, then
into the master's domestic numbering. -/
def masterCopyIdx (ovSelf ovMaster : Overlap) (d : Int) : Int :=
  ovMaster.globalToDomestic (ovSelf.domesticToGlobal d)

/-- The total contribution a single peer's payload makes to row `d` under
the add-always policy: the sum of the values at the plan positions that
target `d` (a row listed several times is added several times). -/
def addContrib (indices values : List Int) (d : Int) : Int :=
  (((indices.zip values).filter fun iv => iv.1 = d).map Prod.snd).sum

/-! ### Basic vector lemmas -/

theorem length_vecSet (x : List Int) (i v : Int) :
    (vecSet x i v).length = x.length :=
  List.length_set x i.toNat v

theorem vecGet_vecSet_self {x : List Int} {i : Int} (v : Int)
    (h : i.toNat < x.length) : vecGet (vecSet x i v) i = v := by
  unfold vecGet vecSet
  rw [List.getD_eq_getElem _ _ (by simpa using h)]
  exact List.getElem_set_self _

theorem vecGet_vecSet_ne {x : List Int} {i j : Int} (v : Int)
    (hi : 0 ≤ i) (hj : 0 ≤ j) (hne : i ≠ j) :
    vecGet (vecSet x i v) j = vecGet x j := by
  have htn : i.toNat ≠ j.toNat := by omega
  unfold vecGet vecSet
  rcases Nat.lt_or_ge j.toNat x.length with hlt | hge
  · rw [List.getD_eq_getElem _ _ (by simpa using hlt),
      List.getD_eq_getElem _ _ hlt]
    exact List.getElem_set_ne htn _
  · rw [List.getD_eq_default _ _ (by simpa using hge),
      List.getD_eq_default _ _ hge]

theorem vecSet_vecGet_self {x : List Int} {i : Int}
    (h : i.toNat < x.length) : vecSet x i (vecGet x i) = x := by
  unfold vecGet vecSet
  apply List.ext_getElem (by simp)
  intro n h1 h2
  rw [List.getElem_set]
  split
  · next heq => subst heq; rw [List.getD_eq_getElem _ _ h]
  · rfl

/-! ### Generic fold invariants -/

theorem foldl_length_invariant {α : Type} (f : List Int → α → List Int)
    (l : List α) (x : List Int)
    (h : ∀ acc a, a ∈ l → (f acc a).length = acc.length) :
    (l.foldl f x).length = x.length := by
  induction l generalizing x with
  | nil => rfl
  | cons a l ih =>
    rw [List.foldl_cons, ih _ fun acc b hb => h acc b (List.mem_cons_of_mem a hb)]
    exact h x a (List.mem_cons_self a l)

theorem foldl_vecGet_frame {α : Type} (f : List Int → α → List Int)
    (d : Int) (l : List α) (x : List Int)
    (h : ∀ acc a, a ∈ l → vecGet (f acc a) d = vecGet acc d) :
    vecGet (l.foldl f x) d = vecGet x d := by
  induction l generalizing x with
  | nil => rfl
  | cons a l ih =>
    rw [List.foldl_cons, ih _ fun acc b hb => h acc b (List.mem_cons_of_mem a hb)]
    exact h x a (List.mem_cons_self a l)

/-! ### Length preservation of the receive-merge routines -/

theorem length_receiveFromMaster (ov : Overlap) (p : Nat)
    (idx vals x : List Int) :
    (receiveFromMaster ov p idx vals x).length = x.length := by
  unfold receiveFromMaster
  apply foldl_length_invariant
  intro acc iv _
  by_cases h : ov.masterRank iv.1 = p <;> simp [h, length_vecSet]

theorem length_receiveAddBorder (ov : Overlap) (p : Nat)
    (idx vals x : List Int) :
    (receiveAddBorder ov p idx vals x).length = x.length := by
  unfold receiveAddBorder
  apply foldl_length_invariant
  intro acc iv _
  by_cases h : ov.isBorderWith iv.1 p <;> simp [h, length_vecSet]

theorem length_receiveAdd (ov : Overlap) (p : Nat)
    (idx vals x : List Int) :
    (receiveAdd ov p idx vals x).length = x.length := by
  unfold receiveAdd
  apply foldl_length_invariant
  intro acc iv _
  exact length_vecSet ..

theorem length_syncRecvPhase (ov : Overlap) (recvIdx recvVals : Nat → List Int)
    (x : List Int) :
    (syncRecvPhase ov recvIdx recvVals x).length = x.length := by
  unfold syncRecvPhase
  apply foldl_length_invariant
  intro acc p _
  exact length_receiveFromMaster ..

/-! ### Frame lemmas: rows a receive-merge routine does not touch -/

theorem receiveFromMaster_frame_of_master_ne (ov : Overlap) (p : Nat)
    {idx : List Int} (vals x : List Int) {d : Int}
    (hd : 0 ≤ d) (hnn : ∀ i ∈ idx, 0 ≤ i) (hm : ov.masterRank d ≠ p) :
    vecGet (receiveFromMaster ov p idx vals x) d = vecGet x d := by
  unfold receiveFromMaster
  apply foldl_vecGet_frame
  intro acc iv hmem
  obtain ⟨hi, -⟩ := List.of_mem_zip hmem
  by_cases hg : ov.masterRank iv.1 = p
  · rw [if_pos hg]
    exact vecGet_vecSet_ne _ (hnn _ hi) hd fun h => hm (h ▸ hg)
  · rw [if_neg hg]

theorem receiveFromMaster_frame_of_notmem (ov : Overlap) (p : Nat)
    {idx : List Int} (vals x : List Int) {d : Int}
    (hd : 0 ≤ d) (hnn : ∀ i ∈ idx, 0 ≤ i) (hnm : d ∉ idx) :
    vecGet (receiveFromMaster ov p idx vals x) d = vecGet x d := by
  unfold receiveFromMaster
  apply foldl_vecGet_frame
  intro acc iv hmem
  obtain ⟨hi, -⟩ := List.of_mem_zip hmem
  have hne : iv.1 ≠ d := fun h => hnm (h ▸ hi)
  by_cases hg : ov.masterRank iv.1 = p
  · rw [if_pos hg]
    exact vecGet_vecSet_ne _ (hnn _ hi) hd hne
  · rw [if_neg hg]

theorem receiveAddBorder_frame_of_notmem (ov : Overlap) (p : Nat)
    {idx : List Int} (vals x : List Int) {d : Int}
    (hd : 0 ≤ d) (hnn : ∀ i ∈ idx, 0 ≤ i) (hnm : d ∉ idx) :
    vecGet (receiveAddBorder ov p idx vals x) d = vecGet x d := by
  unfold receiveAddBorder
  apply foldl_vecGet_frame
  intro acc iv hmem
  obtain ⟨hi, -⟩ := List.of_mem_zip hmem
  have hne : iv.1 ≠ d := fun h => hnm (h ▸ hi)
  by_cases hg : ov.isBorderWith iv.1 p
  · rw [if_pos hg]
    exact vecGet_vecSet_ne _ (hnn _ hi) hd hne
  · rw [if_neg hg]
    exact vecGet_vecSet_ne _ (hnn _ hi) hd hne

theorem receiveAdd_frame_of_notmem (ov : Overlap) (p : Nat)
    {idx : List Int} (vals x : List Int) {d : Int}
    (hd : 0 ≤ d) (hnn : ∀ i ∈ idx, 0 ≤ i) (hnm : d ∉ idx) :
    vecGet (receiveAdd ov p idx vals x) d = vecGet x d := by
  unfold receiveAdd
  apply foldl_vecGet_frame
  intro acc iv hmem
  obtain ⟨hi, -⟩ := List.of_mem_zip hmem
  exact vecGet_vecSet_ne _ (hnn _ hi) hd fun h => hnm (h ▸ hi)

/-- Rows whose master rank is not in the peer set are never written by the
receive loop of `sync()`. -/
theorem syncRecvPhase_frame (ov : Overlap) (recvIdx recvVals : Nat → List Int)
    (x : List Int) {d : Int}
    (hd : 0 ≤ d)
    (hnn : ∀ p ∈ ov.peerSet, ∀ i ∈ recvIdx p, 0 ≤ i)
    (hm : ov.masterRank d ∉ ov.peerSet) :
    vecGet (syncRecvPhase ov recvIdx recvVals x) d = vecGet x d := by
  unfold syncRecvPhase
  apply foldl_vecGet_frame
  intro acc p hp
  exact receiveFromMaster_frame_of_master_ne ov p _ _ hd (hnn p hp)
    fun h => hm (h ▸ hp)

/-! ### Value of a targeted row after a receive-merge routine -/

/-- If position `j` of a duplicate-free receive plan targets row `d` and the
sending peer is `d`'s master, `receiveFromMaster_` leaves row `d` holding the
payload value at position `j`. -/
theorem receiveFromMaster_get_of_target (ov : Overlap) (p : Nat)
    (idx : List Int) :
    ∀ (vals x : List Int) (j : Nat) (d : Int),
      idx.Nodup → (∀ i ∈ idx, 0 ≤ i) → j < idx.length → j < vals.length →
      idx.getD j 0 = d → ov.masterRank d = p → 0 ≤ d → d.toNat < x.length →
      vecGet (receiveFromMaster ov p idx vals x) d = vals.getD j 0 := by
  induction idx with
  | nil => intro vals x j d _ _ hj; simp at hj
  | cons i idx ih =>
    intro vals x j d hnodup hnn hj hjv ht hguard hd hdlen
    cases vals with
    | nil => simp at hjv
    | cons v vals =>
      rw [List.nodup_cons] at hnodup
      simp only [receiveFromMaster, List.zip_cons_cons, List.foldl_cons]
      cases j with
      | zero =>
        rw [List.getD_cons_zero] at ht
        subst ht
        rw [if_pos hguard, List.getD_cons_zero]
        have hframe := receiveFromMaster_frame_of_notmem ov p vals
          (vecSet x i v) hd (fun a ha => hnn a (List.mem_cons_of_mem i ha))
          hnodup.1
        unfold receiveFromMaster at hframe
        rw [hframe]
        exact vecGet_vecSet_self v hdlen
      | succ j =>
        rw [List.getD_cons_succ] at ht
        rw [List.getD_cons_succ]
        by_cases hg : ov.masterRank i = p
        · rw [if_pos hg]
          have := ih vals (vecSet x i v) j d hnodup.2
            (fun a ha => hnn a (List.mem_cons_of_mem i ha))
            (by simpa using hj) (by simpa using hjv) ht hguard hd
            (by rw [length_vecSet]; exact hdlen)
          unfold receiveFromMaster at this
          exact this
        · rw [if_neg hg]
          have := ih vals x j d hnodup.2
            (fun a ha => hnn a (List.mem_cons_of_mem i ha))
            (by simpa using hj) (by simpa using hjv) ht hguard hd hdlen
          unfold receiveFromMaster at this
          exact this

/-- If position `j` of a duplicate-free receive plan targets row `d`,
`receiveAddBorder_` leaves row `d` holding the sum of its previous value and
the payload when the row is a border row with the sending peer, and the bare
payload value otherwise. -/
theorem receiveAddBorder_get_of_target (ov : Overlap) (p : Nat)
    (idx : List Int) :
    ∀ (vals x : List Int) (j : Nat) (d : Int),
      idx.Nodup → (∀ i ∈ idx, 0 ≤ i) → j < idx.length → j < vals.length →
      idx.getD j 0 = d → 0 ≤ d → d.toNat < x.length →
      vecGet (receiveAddBorder ov p idx vals x) d =
        (if ov.isBorderWith d p then vecGet x d + vals.getD j 0
         else vals.getD j 0) := by
  induction idx with
  | nil => intro vals x j d _ _ hj; simp at hj
  | cons i idx ih =>
    intro vals x j d hnodup hnn hj hjv ht hd hdlen
    cases vals with
    | nil => simp at hjv
    | cons v vals =>
      rw [List.nodup_cons] at hnodup
      simp only [receiveAddBorder, List.zip_cons_cons, List.foldl_cons]
      cases j with
      | zero =>
        rw [List.getD_cons_zero] at ht
        subst ht
        rw [List.getD_cons_zero]
        have hnn' : ∀ a ∈ idx, (0:Int) ≤ a :=
          fun a ha => hnn a (List.mem_cons_of_mem i ha)
        by_cases hb : ov.isBorderWith i p
        · rw [if_pos hb, if_pos hb]
          have hframe := receiveAddBorder_frame_of_notmem ov p vals
            (vecSet x i (vecGet x i + v)) hd hnn' hnodup.1
          unfold receiveAddBorder at hframe
          rw [hframe]
          exact vecGet_vecSet_self _ hdlen
        · rw [if_neg hb, if_neg hb]
          have hframe := receiveAddBorder_frame_of_notmem ov p vals
            (vecSet x i v) hd hnn' hnodup.1
          unfold receiveAddBorder at hframe
          rw [hframe]
          exact vecGet_vecSet_self _ hdlen
      | succ j =>
        rw [List.getD_cons_succ] at ht
        rw [List.getD_cons_succ]
        have hnn' : ∀ a ∈ idx, (0:Int) ≤ a :=
          fun a ha => hnn a (List.mem_cons_of_mem i ha)
        have hmem : d ∈ idx := by
          rw [← ht]
          exact List.getD_eq_getElem idx 0 (by simpa using hj) ▸
            List.getElem_mem _
        have hine : i ≠ d := fun h => hnodup.1 (h ▸ hmem)
        have hi0 : (0:Int) ≤ i := hnn i (List.mem_cons_self i idx)
        -- the head write targets a different row, so row d keeps its value
        have hkeep : ∀ w : Int, vecGet (vecSet x i w) d = vecGet x d :=
          fun w => vecGet_vecSet_ne w hi0 hd hine
        by_cases hb : ov.isBorderWith i p
        · rw [if_pos hb]
          have := ih vals (vecSet x i (vecGet x i + v)) j d hnodup.2 hnn'
            (by simpa using hj) (by simpa using hjv) ht hd
            (by rw [length_vecSet]; exact hdlen)
          unfold receiveAddBorder at this
          rw [this, hkeep]
        · rw [if_neg hb]
          have := ih vals (vecSet x i v) j d hnodup.2 hnn'
            (by simpa using hj) (by simpa using hjv) ht hd
            (by rw [length_vecSet]; exact hdlen)
          unfold receiveAddBorder at this
          rw [this, hkeep]

/-- `receiveAdd_` adds to row `d` exactly the sum of the payload entries at
plan positions targeting `d` (so every incoming value is accumulated, with
no master-rank or border test). -/
theorem receiveAdd_get (ov : Overlap) (p : Nat) (idx : List Int) :
    ∀ (vals x : List Int) (d : Int),
      (∀ i ∈ idx, 0 ≤ i ∧ i.toNat < x.length) → 0 ≤ d →
      vecGet (receiveAdd ov p idx vals x) d
        = vecGet x d + addContrib idx vals d := by
  induction idx with
  | nil => intro vals x d _ _; simp [receiveAdd, addContrib]
  | cons i idx ih =>
    intro vals x d hrng hd
    cases vals with
    | nil => simp [receiveAdd, addContrib]
    | cons v vals =>
      simp only [receiveAdd, List.zip_cons_cons, List.foldl_cons]
      have hrng' : ∀ a ∈ idx, (0:Int) ≤ a ∧
          a.toNat < (vecSet x i (vecGet x i + v)).length := by
        intro a ha
        rw [length_vecSet]
        exact hrng a (List.mem_cons_of_mem i ha)
      have hi := hrng i (List.mem_cons_self i idx)
      have step := ih vals (vecSet x i (vecGet x i + v)) d hrng' hd
      unfold receiveAdd at step
      rw [step]
      by_cases hid : i = d
      · subst hid
        rw [vecGet_vecSet_self _ hi.2]
        have : addContrib (i :: idx) (v :: vals) i
            = v + addContrib idx vals i := by
          simp [addContrib, List.zip_cons_cons, List.filter_cons]
        rw [this]
        ring
      · rw [vecGet_vecSet_ne _ hi.1 hd hid]
        have : addContrib (i :: idx) (v :: vals) d
            = addContrib idx vals d := by
          simp [addContrib, List.zip_cons_cons, List.filter_cons, hid]
        rw [this]

/-! ### Identity lemmas: receiving values equal to the current state -/

/-- If every payload entry whose guard fires carries exactly the value the
receiver already holds at the targeted row, `receiveFromMaster_` is the
identity. -/
theorem receiveFromMaster_id (ov : Overlap) (p : Nat) (idx : List Int) :
    ∀ (vals y : List Int),
      (∀ i ∈ idx, 0 ≤ i ∧ i.toNat < y.length) →
      (∀ j, j < idx.length → j < vals.length →
        ov.masterRank (idx.getD j 0) = p →
        vals.getD j 0 = vecGet y (idx.getD j 0)) →
      receiveFromMaster ov p idx vals y = y := by
  induction idx with
  | nil => intro vals y _ _; rfl
  | cons i idx ih =>
    intro vals y hr h
    cases vals with
    | nil => simp [receiveFromMaster]
    | cons v vals =>
      simp only [receiveFromMaster, List.zip_cons_cons, List.foldl_cons]
      have hr' : ∀ a ∈ idx, (0:Int) ≤ a ∧ a.toNat < y.length :=
        fun a ha => hr a (List.mem_cons_of_mem i ha)
      have h' : ∀ j, j < idx.length → j < vals.length →
          ov.masterRank (idx.getD j 0) = p →
          vals.getD j 0 = vecGet y (idx.getD j 0) := by
        intro j h1 h2 h3
        have := h (j + 1) (by simpa using h1) (by simpa using h2)
          (by simpa using h3)
        simpa using this
      have tail := ih vals y hr' h'
      unfold receiveFromMaster at tail
      by_cases hg : ov.masterRank i = p
      · rw [if_pos hg]
        have h0 := h 0 (by simp) (by simp) (by simpa using hg)
        simp only [List.getD_cons_zero] at h0
        rw [h0, vecSet_vecGet_self (hr i (List.mem_cons_self i idx)).2]
        exact tail
      · rw [if_neg hg]
        exact tail

/-- If every guarded payload entry of every peer carries the value the
receiver already holds, the whole receive loop of `sync()` is the
identity. -/
theorem syncRecvPhase_id (ov : Overlap) (recvIdx recvVals : Nat → List Int)
    (y : List Int)
    (hr : ∀ p ∈ ov.peerSet, ∀ i ∈ recvIdx p, 0 ≤ i ∧ i.toNat < y.length)
    (h : ∀ p ∈ ov.peerSet, ∀ j, j < (recvIdx p).length →
      j < (recvVals p).length →
      ov.masterRank ((recvIdx p).getD j 0) = p →
      (recvVals p).getD j 0 = vecGet y ((recvIdx p).getD j 0)) :
    syncRecvPhase ov recvIdx recvVals y = y := by
  unfold syncRecvPhase
  have aux : ∀ ps : List Nat,
      (∀ p ∈ ps, receiveFromMaster ov p (recvIdx p) (recvVals p) y = y) →
      ps.foldl (fun acc p =>
        receiveFromMaster ov p (recvIdx p) (recvVals p) acc) y = y := by
    intro ps
    induction ps with
    | nil => intro _; rfl
    | cons p ps ih =>
      intro hps
      rw [List.foldl_cons, hps p (List.mem_cons_self p ps)]
      exact ih fun q hq => hps q (List.mem_cons_of_mem p hq)
  exact aux ov.peerSet fun p hp =>
    receiveFromMaster_id ov p _ _ y (hr p hp) (h p hp)

/-- After the receive loop of `sync()`, a row whose master `p` is a peer and
whose (duplicate-free) receive plan for `p` targets it at position `j` holds
exactly the payload value `p` delivered at position `j`. -/
theorem syncRecvPhase_get_master (ov : Overlap)
    (recvIdx recvVals : Nat → List Int) (x : List Int)
    {d : Int} {p : Nat} {j : Nat}
    (hp : p ∈ ov.peerSet) (hpnd : ov.peerSet.Nodup)
    (hguard : ov.masterRank d = p)
    (hnodup : (recvIdx p).Nodup)
    (hnn : ∀ q ∈ ov.peerSet, ∀ i ∈ recvIdx q, 0 ≤ i)
    (hj : j < (recvIdx p).length) (hjv : j < (recvVals p).length)
    (ht : (recvIdx p).getD j 0 = d)
    (hd : 0 ≤ d) (hdlen : d.toNat < x.length) :
    vecGet (syncRecvPhase ov recvIdx recvVals x) d
      = (recvVals p).getD j 0 := by
  obtain ⟨l1, l2, hps⟩ := List.append_of_mem hp
  have hnd : p ∉ l1 ∧ p ∉ l2 := by
    rw [hps, List.nodup_append, List.nodup_cons] at hpnd
    exact ⟨fun h => hpnd.2.2 h (List.mem_cons_self p l2), hpnd.2.1.1⟩
  unfold syncRecvPhase
  rw [hps, List.foldl_append, List.foldl_cons]
  set step := fun (acc : List Int) (q : Nat) =>
    receiveFromMaster ov q (recvIdx q) (recvVals q) acc with hstep
  have hmem1 : ∀ q ∈ l1, q ∈ ov.peerSet := by
    intro q hq; rw [hps]; exact List.mem_append_left _ hq
  have hmem2 : ∀ q ∈ l2, q ∈ ov.peerSet := by
    intro q hq; rw [hps]
    exact List.mem_append_right _ (List.mem_cons_of_mem p hq)
  have hlen1 : (l1.foldl step x).length = x.length := by
    apply foldl_length_invariant
    intro acc q _
    exact length_receiveFromMaster ..
  have hmid : vecGet (step (l1.foldl step x) p) d = (recvVals p).getD j 0 := by
    rw [hstep]
    exact receiveFromMaster_get_of_target ov p _ _ _ j d hnodup
      (hnn p hp) hj hjv ht hguard hd (by rw [hlen1]; exact hdlen)
  have hsuffix : vecGet (l2.foldl step (step (l1.foldl step x) p)) d
      = vecGet (step (l1.foldl step x) p) d := by
    apply foldl_vecGet_frame
    intro acc q hq
    have hqp : q ≠ p := fun h => hnd.2 (h ▸ hq)
    exact receiveFromMaster_frame_of_master_ne ov q _ _ hd
      (hnn q (hmem2 q hq)) fun h => hqp (hguard ▸ h).symm
  rw [hsuffix, hmid]

/-! ### Buffer-plan bookkeeping -/

theorem length_indicesRecvBuffOf (ovS ovP : Overlap) (r : Nat) :
    (indicesRecvBuffOf ovS ovP r).length = (sendGlobalIndices ovP r).length := by
  simp [indicesRecvBuffOf, translateRecvIndices]

theorem length_indicesSendBuffOf (ov : Overlap) (r : Nat) :
    (indicesSendBuffOf ov r).length = (sendGlobalIndices ov r).length := by
  simp [indicesSendBuffOf]

theorem length_sendEntries (ov : Overlap) (x : List Int) (r : Nat) :
    (sendEntries ov x r).length = (sendGlobalIndices ov r).length := by
  simp [sendEntries, indicesSendBuffOf]

theorem getD_indicesRecvBuffOf (ovS ovP : Overlap) (r : Nat) {j : Nat}
    (hj : j < (sendGlobalIndices ovP r).length) :
    (indicesRecvBuffOf ovS ovP r).getD j 0
      = ovS.globalToDomestic ((sendGlobalIndices ovP r).getD j 0) := by
  rw [List.getD_eq_getElem _ _ (by rw [length_indicesRecvBuffOf]; exact hj),
    List.getD_eq_getElem _ _ hj]
  simp [indicesRecvBuffOf, translateRecvIndices]

theorem getD_indicesSendBuffOf (ov : Overlap) (r : Nat) {j : Nat}
    (hj : j < (sendGlobalIndices ov r).length) :
    (indicesSendBuffOf ov r).getD j 0
      = ov.globalToDomestic ((sendGlobalIndices ov r).getD j 0) := by
  rw [List.getD_eq_getElem _ _ (by rw [length_indicesSendBuffOf]; exact hj),
    List.getD_eq_getElem _ _ hj]
  simp [indicesSendBuffOf]

theorem getD_sendEntries (ov : Overlap) (x : List Int) (r : Nat) {j : Nat}
    (hj : j < (sendGlobalIndices ov r).length) :
    (sendEntries ov x r).getD j 0
      = vecGet x ((indicesSendBuffOf ov r).getD j 0) := by
  rw [List.getD_eq_getElem _ _ (by rw [length_sendEntries]; exact hj),
    List.getD_eq_getElem _ _ (by rw [length_indicesSendBuffOf]; exact hj)]
  simp [sendEntries]

/-! ### World-level consequences of one `sync()` round -/

theorem length_syncOnce (ov : Nat → Overlap) (vec : Nat → List Int) (r : Nat) :
    (syncOnce ov vec r).length = (vec r).length :=
  length_syncRecvPhase ..

/-- A process's copy of a row it masters itself is untouched by its own
`sync()` receive loop (the local rank is not in its own peer set, so the
master-rank guard fails for every incoming message). -/
theorem syncOnce_frame_local (ov : Nat → Overlap) (vec : Nat → List Int)
    (p : Nat) {e : Int}
    (he : 0 ≤ e)
    (hmaster : (ov p).masterRank e = p)
    (hself : p ∉ (ov p).peerSet)
    (hnn : ∀ q ∈ (ov p).peerSet,
      ∀ i ∈ indicesRecvBuffOf (ov p) (ov q) p, 0 ≤ i) :
    vecGet (syncOnce ov vec p) e = vecGet (vec p) e := by
  unfold syncOnce
  exact syncRecvPhase_frame (ov p) _ _ (vec p) he hnn
    (by rw [hmaster]; exact hself)

/-- After one world `sync()` round, an overlap row of rank `r` whose master
is the peer `m` (and which `m`'s channel covers) holds the value `m` held,
before the round, in its own copy of that row (`masterCopyIdx`). -/
theorem syncOnce_get_overlap_master
    (ov : Nat → Overlap) (vec : Nat → List Int) (r : Nat) {d : Int} {m : Nat}
    (hmaster : (ov r).masterRank d = m)
    (hmp : m ∈ (ov r).peerSet)
    (hpnd : (ov r).peerSet.Nodup)
    (hnodup : (indicesRecvBuffOf (ov r) (ov m) r).Nodup)
    (hnn : ∀ q ∈ (ov r).peerSet,
      ∀ i ∈ indicesRecvBuffOf (ov r) (ov q) r, 0 ≤ i)
    (hcov : d ∈ indicesRecvBuffOf (ov r) (ov m) r)
    (hd : 0 ≤ d) (hdlen : d.toNat < (vec r).length)
    (hginv : ∀ g ∈ sendGlobalIndices (ov m) r,
      (ov r).domesticToGlobal ((ov r).globalToDomestic g) = g) :
    vecGet (syncOnce ov vec r) d
      = vecGet (vec m) (masterCopyIdx (ov r) (ov m) d) := by
  obtain ⟨j, hjlen, hjval⟩ := List.mem_iff_getElem.mp hcov
  have hjlen' : j < (sendGlobalIndices (ov m) r).length := by
    rw [← length_indicesRecvBuffOf (ov r) (ov m) r]; exact hjlen
  have ht : (indicesRecvBuffOf (ov r) (ov m) r).getD j 0 = d := by
    rw [List.getD_eq_getElem _ _ hjlen]; exact hjval
  have hg : (ov r).globalToDomestic ((sendGlobalIndices (ov m) r).getD j 0)
      = d := by
    rw [← getD_indicesRecvBuffOf (ov r) (ov m) r hjlen']; exact ht
  have hgmem : (sendGlobalIndices (ov m) r).getD j 0
      ∈ sendGlobalIndices (ov m) r := by
    rw [List.getD_eq_getElem _ _ hjlen']
    exact List.getElem_mem _
  have hback : (ov r).domesticToGlobal d
      = (sendGlobalIndices (ov m) r).getD j 0 := by
    rw [← hg]
    exact hginv _ hgmem
  have hcopy : masterCopyIdx (ov r) (ov m) d
      = (indicesSendBuffOf (ov m) r).getD j 0 := by
    rw [masterCopyIdx, hback, getD_indicesSendBuffOf (ov m) r hjlen']
  have hval := syncRecvPhase_get_master (ov r)
    (fun p => indicesRecvBuffOf (ov r) (ov p) r)
    (fun p => sendEntries (ov p) (vec p) r) (vec r)
    hmp hpnd hmaster hnodup hnn hjlen
    (by rw [length_sendEntries]; exact hjlen') ht hd hdlen
  unfold syncOnce
  rw [hval, getD_sendEntries (ov m) (vec m) r hjlen', hcopy]

/-! ### Case analysis for `receiveFromMaster_` / accumulation for `receiveAdd_` -/

/-- Any change `receiveFromMaster_` makes to a row comes with the master
guard satisfied and carries a payload value of the sending peer. -/
theorem receiveFromMaster_get_cases (ov : Overlap) (p : Nat) (idx : List Int) :
    ∀ (vals x : List Int) (d : Int),
      (∀ i ∈ idx, 0 ≤ i ∧ i.toNat < x.length) → 0 ≤ d →
      vecGet (receiveFromMaster ov p idx vals x) d = vecGet x d ∨
      (ov.masterRank d = p ∧ ∃ j, j < idx.length ∧ j < vals.length ∧
        idx.getD j 0 = d ∧
        vecGet (receiveFromMaster ov p idx vals x) d = vals.getD j 0) := by
  induction idx with
  | nil => intro vals x d _ _; left; rfl
  | cons i idx ih =>
    intro vals x d hr hd
    cases vals with
    | nil => left; simp [receiveFromMaster]
    | cons v vals =>
      simp only [receiveFromMaster, List.zip_cons_cons, List.foldl_cons]
      have hi := hr i (List.mem_cons_self i idx)
      by_cases hg : ov.masterRank i = p
      · rw [if_pos hg]
        have hr1 : ∀ a ∈ idx, (0:Int) ≤ a ∧ a.toNat < (vecSet x i v).length := by
          intro a ha
          rw [length_vecSet]
          exact hr a (List.mem_cons_of_mem i ha)
        rcases ih vals (vecSet x i v) d hr1 hd with hkeep | ⟨hm, j, h1, h2, h3, h4⟩
        · unfold receiveFromMaster at hkeep
          by_cases hid : i = d
          · right
            subst hid
            refine ⟨hg, 0, by simp, by simp, by simp, ?_⟩
            rw [hkeep, vecGet_vecSet_self v hi.2]
            simp
          · left
            rw [hkeep]
            exact vecGet_vecSet_ne v hi.1 hd hid
        · right
          exact ⟨hm, j + 1, by simpa using h1, by simpa using h2,
            by simpa using h3, by simpa using h4⟩
      · rw [if_neg hg]
        have := ih vals x d (fun a ha => hr a (List.mem_cons_of_mem i ha)) hd
        rcases this with hkeep | ⟨hm, j, h1, h2, h3, h4⟩
        · left; exact hkeep
        · right
          exact ⟨hm, j + 1, by simpa using h1, by simpa using h2,
            by simpa using h3, by simpa using h4⟩

/-- Accumulated effect of the add-always receive loop over a list of peers. -/
theorem receiveAdd_fold_get (ov : Overlap) (recvIdx recvVals : Nat → List Int)
    (d : Int) (hd : 0 ≤ d) :
    ∀ (ps : List Nat) (x : List Int),
      (∀ p ∈ ps, ∀ i ∈ recvIdx p, 0 ≤ i ∧ i.toNat < x.length) →
      vecGet (ps.foldl
        (fun acc p => receiveAdd ov p (recvIdx p) (recvVals p) acc) x) d
        = vecGet x d
          + (ps.map fun p => addContrib (recvIdx p) (recvVals p) d).sum := by
  intro ps
  induction ps with
  | nil => intro x _; simp
  | cons p ps ih =>
    intro x hr
    rw [List.foldl_cons]
    have hr1 : ∀ q ∈ ps, ∀ i ∈ recvIdx q,
        (0:Int) ≤ i ∧ i.toNat < (receiveAdd ov p (recvIdx p) (recvVals p) x).length := by
      intro q hq i hiq
      rw [length_receiveAdd]
      exact hr q (List.mem_cons_of_mem p hq) i hiq
    rw [ih _ hr1,
      receiveAdd_get ov p (recvIdx p) (recvVals p) x d
        (hr p (List.mem_cons_self p ps)) hd]
    simp [add_assoc]

/-! ### C1 -/

/-- C1: in the receive loop of `sync()`, a domestic row either keeps its
pre-call value or was overwritten through the channel of the peer that is
its master rank, with a value that peer delivered at a plan position
targeting the row.  Values received for the row from non-master peers are
discarded, even when several peers target the same row. -/
theorem sync_overwrites_only_from_master (ov : Overlap)
    (recvIdx recvVals : Nat → List Int) (x : List Int) (d : Int)
    (hd : 0 ≤ d)
    (hr : ∀ p ∈ ov.peerSet, ∀ i ∈ recvIdx p, 0 ≤ i ∧ i.toNat < x.length) :
    vecGet (syncRecvPhase ov recvIdx recvVals x) d = vecGet x d ∨
    (ov.masterRank d ∈ ov.peerSet ∧
      ∃ j, j < (recvIdx (ov.masterRank d)).length ∧
        j < (recvVals (ov.masterRank d)).length ∧
        (recvIdx (ov.masterRank d)).getD j 0 = d ∧
        vecGet (syncRecvPhase ov recvIdx recvVals x) d
          = (recvVals (ov.masterRank d)).getD j 0) := by
  unfold syncRecvPhase
  have aux : ∀ (ps : List Nat) (y : List Int),
      (∀ p ∈ ps, p ∈ ov.peerSet) →
      (∀ p ∈ ps, ∀ i ∈ recvIdx p, 0 ≤ i ∧ i.toNat < y.length) →
      vecGet (ps.foldl
        (fun acc p => receiveFromMaster ov p (recvIdx p) (recvVals p) acc) y) d
          = vecGet y d ∨
      (ov.masterRank d ∈ ps ∧
        ∃ j, j < (recvIdx (ov.masterRank d)).length ∧
          j < (recvVals (ov.masterRank d)).length ∧
          (recvIdx (ov.masterRank d)).getD j 0 = d ∧
          vecGet (ps.foldl
            (fun acc p => receiveFromMaster ov p (recvIdx p) (recvVals p) acc) y) d
            = (recvVals (ov.masterRank d)).getD j 0) := by
    intro ps
    induction ps with
    | nil => intro y _ _; left; rfl
    | cons p ps ih =>
      intro y hsub hry
      rw [List.foldl_cons]
      have hry1 : ∀ q ∈ ps, ∀ i ∈ recvIdx q, (0:Int) ≤ i ∧
          i.toNat < (receiveFromMaster ov p (recvIdx p) (recvVals p) y).length := by
        intro q hq i hiq
        rw [length_receiveFromMaster]
        exact hry q (List.mem_cons_of_mem p hq) i hiq
      have hrest := ih _ (fun q hq => hsub q (List.mem_cons_of_mem p hq)) hry1
      rcases hrest with hkeep | ⟨hm, j, h1, h2, h3, h4⟩
      · rcases receiveFromMaster_get_cases ov p (recvIdx p) (recvVals p) y d
          (hry p (List.mem_cons_self p ps)) hd with hk | ⟨hmp, j, h1, h2, h3, h4⟩
        · left; rw [hkeep, hk]
        · right
          refine ⟨by rw [hmp]; exact List.mem_cons_self p ps,
            j, ?_, ?_, ?_, ?_⟩ <;> rw [hmp]
          · exact h1
          · exact h2
          · exact h3
          · rw [hkeep, h4]
      · right
        exact ⟨List.mem_cons_of_mem p hm, j, h1, h2, h3, h4⟩
  exact aux ov.peerSet x (fun p hp => hp) hr

/-- Concrete witness setup for the single-process claims: a descriptor with
two peers where row `0` is mastered by peer `1`, row `1` is mastered by peer
`2`, and row `2` is locally owned (rank `0`); row `0` is a border row with
peer `2` only. -/
def ovW : Overlap where
  numDomestic := 3
  numNative := 2
  domesticToNative := fun d => if d = 0 then 0 else if d = 1 then 1 else -1
  nativeToDomestic := fun n => if n = 0 then 0 else if n = 1 then 1 else -1
  domesticToGlobal := fun d => d
  globalToDomestic := fun g => if 0 ≤ g ∧ g < 3 then g else -1
  peerSet := [1, 2]
  foreignOverlapSize := fun _ => 1
  foreignOverlapOffsetToDomesticIdx := fun _ _ => 2
  masterRank := fun d => if d = 0 then 1 else if d = 1 then 2 else 0
  isBorderWith := fun d p => d = 0 && p = 2
  isLocal := fun d => d = 2

/-- Witness for C1: with receive plans `[0]` from both peers (peer `1` the
master of row `0`, peer `2` not), the received row `0` is overwritten with
the master's payload `7`, and the non-master payload `9` is discarded. -/
theorem sync_overwrites_only_from_master_witness :
    (0:Int) ≤ 0 ∧
    (vecGet (syncRecvPhase ovW (fun _ => [0])
        (fun p => if p = 1 then [7] else [9]) [5, 5, 5]) 0 = vecGet [5, 5, 5] 0 ∨
      (ovW.masterRank 0 ∈ ovW.peerSet ∧
        ∃ j, j < ([0] : List Int).length ∧
          j < (if ovW.masterRank 0 = 1 then [(7:Int)] else [9]).length ∧
          ([0] : List Int).getD j 0 = 0 ∧
          vecGet (syncRecvPhase ovW (fun _ => [0])
            (fun p => if p = 1 then [7] else [9]) [5, 5, 5]) 0
            = (if ovW.masterRank 0 = 1 then [(7:Int)] else [9]).getD j 0)) :=
  ⟨le_refl 0, sync_overwrites_only_from_master ovW (fun _ => [0])
    (fun p => if p = 1 then [7] else [9]) [5, 5, 5] 0 (by decide) (by decide)⟩

/-! ### C10 -/

/-- C10: a domestic row that is locally owned (`isLocal`, i.e. its master
rank is the local rank) is never written by the receive loop of `sync()`,
whatever rows the peers' receive plans list: the local rank is not in its
own peer set, so the guard `masterRank(domRowIdx) == peerRank` fails for
every incoming message and the row keeps its pre-call value. -/
theorem sync_preserves_locally_owned_rows (ov : Overlap) (myRank : Nat)
    (recvIdx recvVals : Nat → List Int) (x : List Int) (d : Int)
    (hd : 0 ≤ d)
    (hloc : ov.isLocal d = true)
    (hli : ov.isLocal d = true → ov.masterRank d = myRank)
    (hself : myRank ∉ ov.peerSet)
    (hnn : ∀ p ∈ ov.peerSet, ∀ i ∈ recvIdx p, 0 ≤ i) :
    vecGet (syncRecvPhase ov recvIdx recvVals x) d = vecGet x d := by
  apply syncRecvPhase_frame ov recvIdx recvVals x hd hnn
  rw [hli hloc]
  exact hself

/-- Witness for C10: rank `0`'s own row `2` keeps its value `5` through the
receive loop even though both peers' plans list row `2`. -/
theorem sync_preserves_locally_owned_rows_witness :
    vecGet (syncRecvPhase ovW (fun _ => [2]) (fun _ => [77]) [5, 5, 5]) 2
      = vecGet [5, 5, 5] 2 :=
  sync_preserves_locally_owned_rows ovW 0 (fun _ => [2]) (fun _ => [77])
    [5, 5, 5] 2 (by decide) (by decide) (fun _ => by decide) (by decide)
    (by decide)

/-! ### C4 -/

/-- C4: the receive loop of `syncAdd()` merges additively and
unconditionally: every domestic row ends at its pre-call value plus the sum,
over all peers of the peer set and all positions of each peer's receive plan
targeting the row, of the delivered values — with no master-rank or border
test anywhere. -/
theorem syncAdd_adds_unconditionally (ov : Overlap)
    (recvIdx recvVals : Nat → List Int) (x : List Int) (d : Int)
    (hd : 0 ≤ d)
    (hr : ∀ p ∈ ov.peerSet, ∀ i ∈ recvIdx p, 0 ≤ i ∧ i.toNat < x.length) :
    vecGet (syncAddRecvPhase ov recvIdx recvVals x) d
      = vecGet x d
        + (ov.peerSet.map fun p => addContrib (recvIdx p) (recvVals p) d).sum := by
  unfold syncAddRecvPhase
  exact receiveAdd_fold_get ov recvIdx recvVals d hd ov.peerSet x hr

/-- Witness for C4: row `0` (a border row of a non-master peer — none of
that matters) accumulates the payloads of both peers: `5 + 7 + 9 = 21`. -/
theorem syncAdd_adds_unconditionally_witness :
    vecGet (syncAddRecvPhase ovW (fun _ => [0])
        (fun p => if p = 1 then [7] else [9]) [5, 5, 5]) 0
      = vecGet [5, 5, 5] 0
        + (ovW.peerSet.map fun p =>
            addContrib [0] (if p = 1 then [7] else [9]) 0).sum :=
  syncAdd_adds_unconditionally ovW (fun _ => [0])
    (fun p => if p = 1 then [7] else [9]) [5, 5, 5] 0 (by decide) (by decide)

/-! ### C3 -/

/-- C3: in the receive loop of `syncAddBorder()` the merge decision is taken
per (row, sending peer): when the peer `p` at position `pre ++ p :: post` of
the peer set delivers, at plan position `j`, a value for row `d`, then row
`d` becomes `current + value` if `d` is a border row with that specific peer
and `value` otherwise — where `current` is the state after the peers of
`pre` were merged; the whole loop is the continuation over `post` of that
per-peer merge, so one row can be accumulated for one peer and overwritten
for another within the same call. -/
theorem syncAddBorder_merge_per_row_peer (ov : Overlap)
    (recvIdx recvVals : Nat → List Int) (x : List Int)
    (pre post : List Nat) (p : Nat) (j : Nat) (d : Int)
    (hps : ov.peerSet = pre ++ p :: post)
    (hnodup : (recvIdx p).Nodup)
    (hnn : ∀ i ∈ recvIdx p, 0 ≤ i)
    (hj : j < (recvIdx p).length) (hjv : j < (recvVals p).length)
    (ht : (recvIdx p).getD j 0 = d)
    (hd : 0 ≤ d) (hdlen : d.toNat < x.length) :
    vecGet (receiveAddBorder ov p (recvIdx p) (recvVals p)
        (pre.foldl (fun acc q =>
          receiveAddBorder ov q (recvIdx q) (recvVals q) acc) x)) d
      = (if ov.isBorderWith d p then
          vecGet (pre.foldl (fun acc q =>
            receiveAddBorder ov q (recvIdx q) (recvVals q) acc) x) d
            + (recvVals p).getD j 0
         else (recvVals p).getD j 0) ∧
    syncAddBorderRecvPhase ov recvIdx recvVals x
      = post.foldl (fun acc q =>
          receiveAddBorder ov q (recvIdx q) (recvVals q) acc)
          (receiveAddBorder ov p (recvIdx p) (recvVals p)
            (pre.foldl (fun acc q =>
              receiveAddBorder ov q (recvIdx q) (recvVals q) acc) x)) := by
  have hylen : (pre.foldl (fun acc q =>
      receiveAddBorder ov q (recvIdx q) (recvVals q) acc) x).length
      = x.length := by
    apply foldl_length_invariant
    intro acc q _
    exact length_receiveAddBorder ..
  constructor
  · exact receiveAddBorder_get_of_target ov p (recvIdx p) (recvVals p) _ j d
      hnodup hnn hj hjv ht hd (by rw [hylen]; exact hdlen)
  · unfold syncAddBorderRecvPhase
    rw [hps, List.foldl_append, List.foldl_cons]

/-- Witness for C3: with both peers targeting row `0` (border with peer `2`,
not with peer `1`), peer `2`'s merge — taken after peer `1` overwrote the
row — adds its payload instead of overwriting. -/
theorem syncAddBorder_merge_per_row_peer_witness :
    (vecGet (receiveAddBorder ovW 2 [0] [9]
        ([1].foldl (fun acc q =>
          receiveAddBorder ovW q [0] (if q = 1 then [7] else [9]) acc)
          [5, 5, 5])) 0
      = (if ovW.isBorderWith 0 2 then
          vecGet ([1].foldl (fun acc q =>
            receiveAddBorder ovW q [0] (if q = 1 then [7] else [9]) acc)
            [5, 5, 5]) 0 + ([9] : List Int).getD 0 0
         else ([9] : List Int).getD 0 0)) ∧
    syncAddBorderRecvPhase ovW (fun _ => [0])
        (fun q => if q = 1 then [7] else [9]) [5, 5, 5]
      = ([] : List Nat).foldl (fun acc q =>
          receiveAddBorder ovW q [0] (if q = 1 then [7] else [9]) acc)
          (receiveAddBorder ovW 2 [0] [9]
            ([1].foldl (fun acc q =>
              receiveAddBorder ovW q [0] (if q = 1 then [7] else [9]) acc)
              [5, 5, 5])) := by
  have h := syncAddBorder_merge_per_row_peer ovW (fun q => [0])
    (fun q => if q = 1 then [7] else [9]) [5, 5, 5] [1] [] 2 0 0
    (by decide) (by decide) (by decide) (by decide) (by decide) (by decide)
    (by decide) (by decide)
  exact h

/-! ### C6 -/

/-- C6: `assignTo` produces a native vector of length `numNative()` whose
entry at every native row is the domestic row `nativeToDomestic(n)` when
that translation is non-negative and zero when it is negative.  The source
method is `const` and only reads the overlapping vector, so it is embedded
as a pure function of it: no communication happens and the overlapping
vector is not modified. -/
theorem assignTo_exports_native_projection (ov : Overlap) (x : List Int) :
    (assignTo ov x).length = ov.numNative ∧
    ∀ n : Nat, n < ov.numNative →
      (assignTo ov x).getD n 0
        = if ov.nativeToDomestic (Int.ofNat n) < 0 then 0
          else vecGet x (ov.nativeToDomestic (Int.ofNat n)) := by
  constructor
  · simp [assignTo]
  · intro n hn
    rw [List.getD_eq_getElem _ _ (by simpa [assignTo] using hn)]
    simp [assignTo]

/-- Witness for C6: exporting `[10, 20, 30]` through `ovW` yields `10` at
native row `0`. -/
theorem assignTo_exports_native_projection_witness :
    0 < ovW.numNative ∧
    (assignTo ovW [10, 20, 30]).getD 0 0
      = if ovW.nativeToDomestic (Int.ofNat 0) < 0 then 0
        else vecGet [10, 20, 30] (ovW.nativeToDomestic (Int.ofNat 0)) :=
  ⟨by decide,
    (assignTo_exports_native_projection ovW [10, 20, 30]).2 0 (by decide)⟩

/-! ### C2 -/

/-- A descriptor under which the peer reports global index `7`, which has no
domestic counterpart on this process (`globalToDomestic` yields the negative
sentinel). -/
def ovNoCounterpart : Overlap where
  numDomestic := 1
  numNative := 1
  domesticToNative := fun _ => 0
  nativeToDomestic := fun _ => 0
  domesticToGlobal := fun d => d
  globalToDomestic := fun g => if g = 0 then 0 else -1
  peerSet := [1]
  foreignOverlapSize := fun _ => 1
  foreignOverlapOffsetToDomesticIdx := fun _ _ => 0
  masterRank := fun _ => 0
  isBorderWith := fun _ _ => false
  isLocal := fun _ => true

/-- Counterexample to C2: when peer `1` reports global index `7`, which has
no domestic counterpart, the receive-plan translation loop of
`createBuffers_` does **not** abort — it completes and stores the
untranslated negative sentinel `-1` in the plan — whereas the spec-modelled
checked translation (`translateRecvIndicesChecked`) would stop with a fatal
diagnostic naming the peer and the index. -/
theorem createBuffers_no_abort_on_unmatched_index :
    translateRecvIndices ovNoCounterpart [7] = [-1] ∧
    translateRecvIndicesChecked ovNoCounterpart 1 [7] = .error (1, 7) := by
  constructor
  · decide
  · rfl

/-- C2 amended: the receive-plan construction never aborts; each received
global index is translated by `globalToDomestic` and the result — the
negative sentinel included, when there is no domestic counterpart — is
stored at the same position of the receive plan, and construction
continues. -/
theorem createBuffers_keeps_sentinel_untranslated (ov : Overlap)
    (globalIdxs : List Int) :
    (translateRecvIndices ov globalIdxs).length = globalIdxs.length ∧
    ∀ j, j < globalIdxs.length →
      (translateRecvIndices ov globalIdxs).getD j 0
        = ov.globalToDomestic (globalIdxs.getD j 0) := by
  constructor
  · simp [translateRecvIndices]
  · intro j hj
    rw [List.getD_eq_getElem _ _ (by simpa [translateRecvIndices] using hj),
      List.getD_eq_getElem _ _ hj]
    simp [translateRecvIndices]

/-- Witness for the amended C2: the unmatched global index `7` of
`ovNoCounterpart` is stored as the sentinel `-1` at its plan position. -/
theorem createBuffers_keeps_sentinel_untranslated_witness :
    0 < ([(7:Int)]).length ∧
    (translateRecvIndices ovNoCounterpart [7]).getD 0 0
      = ovNoCounterpart.globalToDomestic (([(7:Int)]).getD 0 0) :=
  ⟨by decide,
    (createBuffers_keeps_sentinel_untranslated ovNoCounterpart [7]).2 0
      (by decide)⟩

/-! ### Object-level state: the vector together with its buffers -/

/-- The state of an `OverlappingBlockVector` object: the block payload plus
the per-peer buffers created by `createBuffers_` (`numIndicesSendBuff_`,
`indicesSendBuff_`, `indicesRecvBuff_`, `valuesSendBuff_`,
`valuesRecvBuff_`), keyed by peer rank. -/
structure OverlappingBlockVector where
  blocks : List Int
  numIndicesSendBuff : Nat → Nat
  indicesSendBuff : Nat → List Int
  indicesRecvBuff : Nat → List Int
  valuesSendBuff : Nat → List Int
  valuesRecvBuff : Nat → List Int

namespace OverlappingBlockVector

/-- `sync()` on the object state: `sendEntries_` refills the value send
buffer of every peer from the current blocks, the value receive buffers take
the arriving payloads, and the blocks are merged by the
overwrite-from-master receive loop.  The three index buffers are only read. -/
def sync (ov : Overlap) (recvVals : Nat → List Int)
    (v : OverlappingBlockVector) : OverlappingBlockVector :=
  { v with
    valuesSendBuff := fun p =>
      if p ∈ ov.peerSet then (v.indicesSendBuff p).map (vecGet v.blocks)
      else v.valuesSendBuff p
    valuesRecvBuff := fun p =>
      if p ∈ ov.peerSet then recvVals p else v.valuesRecvBuff p
    blocks := syncRecvPhase ov v.indicesRecvBuff recvVals v.blocks }

/-- `syncAdd()` on the object state. -/
def syncAdd (ov : Overlap) (recvVals : Nat → List Int)
    (v : OverlappingBlockVector) : OverlappingBlockVector :=
  { v with
    valuesSendBuff := fun p =>
      if p ∈ ov.peerSet then (v.indicesSendBuff p).map (vecGet v.blocks)
      else v.valuesSendBuff p
    valuesRecvBuff := fun p =>
      if p ∈ ov.peerSet then recvVals p else v.valuesRecvBuff p
    blocks := syncAddRecvPhase ov v.indicesRecvBuff recvVals v.blocks }

/-- `syncAddBorder()` on the object state. -/
def syncAddBorder (ov : Overlap) (recvVals : Nat → List Int)
    (v : OverlappingBlockVector) : OverlappingBlockVector :=
  { v with
    valuesSendBuff := fun p =>
      if p ∈ ov.peerSet then (v.indicesSendBuff p).map (vecGet v.blocks)
      else v.valuesSendBuff p
    valuesRecvBuff := fun p =>
      if p ∈ ov.peerSet then recvVals p else v.valuesRecvBuff p
    blocks := syncAddBorderRecvPhase ov v.indicesRecvBuff recvVals v.blocks }

/-- `assign(nativeBlockVector)` on the object state: the local copy loop
followed by `sync()`. -/
def assign (ov : Overlap) (native : List Int) (recvVals : Nat → List Int)
    (v : OverlappingBlockVector) : OverlappingBlockVector :=
  sync ov recvVals { v with blocks := assignLocal ov native }

/-- `assignAddBorder(nativeBlockVector)` on the object state: the local copy
loop followed by `syncAddBorder()`. -/
def assignAddBorder (ov : Overlap) (native : List Int)
    (recvVals : Nat → List Int)
    (v : OverlappingBlockVector) : OverlappingBlockVector :=
  syncAddBorder ov recvVals { v with blocks := assignLocal ov native }

/-- `assignTo(nativeBlockVector)` on the object state: the method is
`const`, so it returns the object unchanged together with the exported
native vector. -/
def assignToObj (ov : Overlap) (v : OverlappingBlockVector) :
    OverlappingBlockVector × List Int :=
  (v, assignTo ov v.blocks)

end OverlappingBlockVector

/-! ### C9 -/

/-- C9: the per-peer index plans (`numIndicesSendBuff_`, `indicesSendBuff_`,
`indicesRecvBuff_`) are built once by `createBuffers_` and are only read
afterwards: `sync()`, `syncAdd()`, `syncAddBorder()`, `assign()`,
`assignAddBorder()` and `assignTo()` all leave the three index buffers
exactly as constructed, so repeated synchronization calls reuse identical
plans (only the blocks and the value buffers change). -/
theorem index_buffers_immutable_after_construction (ov : Overlap)
    (native : List Int) (recvVals : Nat → List Int)
    (v : OverlappingBlockVector) :
    ((v.sync ov recvVals).numIndicesSendBuff = v.numIndicesSendBuff ∧
      (v.sync ov recvVals).indicesSendBuff = v.indicesSendBuff ∧
      (v.sync ov recvVals).indicesRecvBuff = v.indicesRecvBuff) ∧
    ((v.syncAdd ov recvVals).numIndicesSendBuff = v.numIndicesSendBuff ∧
      (v.syncAdd ov recvVals).indicesSendBuff = v.indicesSendBuff ∧
      (v.syncAdd ov recvVals).indicesRecvBuff = v.indicesRecvBuff) ∧
    ((v.syncAddBorder ov recvVals).numIndicesSendBuff = v.numIndicesSendBuff ∧
      (v.syncAddBorder ov recvVals).indicesSendBuff = v.indicesSendBuff ∧
      (v.syncAddBorder ov recvVals).indicesRecvBuff = v.indicesRecvBuff) ∧
    ((v.assign ov native recvVals).numIndicesSendBuff = v.numIndicesSendBuff ∧
      (v.assign ov native recvVals).indicesSendBuff = v.indicesSendBuff ∧
      (v.assign ov native recvVals).indicesRecvBuff = v.indicesRecvBuff) ∧
    ((v.assignAddBorder ov native recvVals).numIndicesSendBuff
        = v.numIndicesSendBuff ∧
      (v.assignAddBorder ov native recvVals).indicesSendBuff
        = v.indicesSendBuff ∧
      (v.assignAddBorder ov native recvVals).indicesRecvBuff
        = v.indicesRecvBuff) ∧
    ((v.assignToObj ov).1.numIndicesSendBuff = v.numIndicesSendBuff ∧
      (v.assignToObj ov).1.indicesSendBuff = v.indicesSendBuff ∧
      (v.assignToObj ov).1.indicesRecvBuff = v.indicesRecvBuff) :=
  ⟨⟨rfl, rfl, rfl⟩, ⟨rfl, rfl, rfl⟩, ⟨rfl, rfl, rfl⟩,
    ⟨rfl, rfl, rfl⟩, ⟨rfl, rfl, rfl⟩, ⟨rfl, rfl, rfl⟩⟩

theorem getD_mem_of_lt {l : List Int} {j : Nat} (h : j < l.length) :
    l.getD j 0 ∈ l := by
  rw [List.getD_eq_getElem _ _ h]
  exact List.getElem_mem _

/-! ### C8 -/

/-- C8: one whole-world `sync()` round is idempotent on rank `r`: with no
mutation in between, a second round rewrites every row it writes with the
same value, because each such row was just set to its master's copy and the
master's own copy is untouched by its own round.  The hypotheses say the
topology is well formed: the peer list is duplicate-free, no process is its
own peer, receive plans are duplicate-free and in range, and a row that rank
`r` attributes to master `p` is also attributed to `p` by `p` itself. -/
theorem sync_idempotent (ov : Nat → Overlap) (vec : Nat → List Int) (r : Nat)
    (hpnd : (ov r).peerSet.Nodup)
    (hself : ∀ p ∈ (ov r).peerSet, p ∉ (ov p).peerSet)
    (hnodup : ∀ p ∈ (ov r).peerSet, (indicesRecvBuffOf (ov r) (ov p) r).Nodup)
    (hrng : ∀ p ∈ (ov r).peerSet, ∀ i ∈ indicesRecvBuffOf (ov r) (ov p) r,
      0 ≤ i ∧ i.toNat < (vec r).length)
    (hpeer_nn : ∀ p ∈ (ov r).peerSet, ∀ q ∈ (ov p).peerSet,
      ∀ i ∈ indicesRecvBuffOf (ov p) (ov q) p, 0 ≤ i)
    (hsend_nn : ∀ p ∈ (ov r).peerSet, ∀ i ∈ indicesSendBuffOf (ov p) r, 0 ≤ i)
    (hmaster : ∀ p ∈ (ov r).peerSet, ∀ j,
      j < (indicesRecvBuffOf (ov r) (ov p) r).length →
      (ov r).masterRank ((indicesRecvBuffOf (ov r) (ov p) r).getD j 0) = p →
      (ov p).masterRank ((indicesSendBuffOf (ov p) r).getD j 0) = p) :
    syncOnce ov (syncOnce ov vec) r = syncOnce ov vec r := by
  set y := syncOnce ov vec with hy
  show syncRecvPhase (ov r) _ _ (y r) = y r
  apply syncRecvPhase_id
  · intro p hp i hi
    refine ⟨(hrng p hp i hi).1, ?_⟩
    rw [hy, length_syncOnce]
    exact (hrng p hp i hi).2
  · intro p hp j hjlen hjv hguard
    have hjg : j < (sendGlobalIndices (ov p) r).length := by
      rw [← length_indicesRecvBuffOf (ov r) (ov p) r]
      exact hjlen
    have hjs : j < (indicesSendBuffOf (ov p) r).length := by
      rw [length_indicesSendBuffOf]
      exact hjg
    have hm2 := hmaster p hp j hjlen hguard
    have hsnn := hsend_nn p hp _ (getD_mem_of_lt hjs)
    have hd := hrng p hp _ (getD_mem_of_lt hjlen)
    -- the payload of the second round equals the payload of the first:
    -- the master's copy is untouched by its own round
    have hpay : (sendEntries (ov p) (y p) r).getD j 0
        = (sendEntries (ov p) (vec p) r).getD j 0 := by
      rw [getD_sendEntries (ov p) (y p) r hjg,
        getD_sendEntries (ov p) (vec p) r hjg]
      exact syncOnce_frame_local ov vec p hsnn hm2 (hself p hp)
        (hpeer_nn p hp)
    -- after the first round, the row holds the first round's payload
    have hrow : vecGet (y r) ((indicesRecvBuffOf (ov r) (ov p) r).getD j 0)
        = (sendEntries (ov p) (vec p) r).getD j 0 := by
      rw [hy]
      exact syncRecvPhase_get_master (ov r) _ _ (vec r) hp hpnd hguard
        (hnodup p hp) (fun q hq i hi => (hrng q hq i hi).1) hjlen
        (by rw [length_sendEntries]; exact hjg) rfl hd.1 hd.2
    rw [hpay, hrow]

/-! ### The assign/sync world: shared facts for C5 and C7 -/

theorem length_assignLocal (ov : Overlap) (native : List Int) :
    (assignLocal ov native).length = ov.numDomestic := by
  simp [assignLocal]

theorem getD_assignLocal (ov : Overlap) (native : List Int) {d : Nat}
    (hd : d < ov.numDomestic) :
    (assignLocal ov native).getD d 0
      = if ov.domesticToNative (Int.ofNat d) < 0 then 0
        else native.getD (ov.domesticToNative (Int.ofNat d)).toNat 0 := by
  rw [List.getD_eq_getElem _ _ (by simpa [assignLocal] using hd)]
  simp [assignLocal]

/-- Position `j` of the receive plan targets row `d` exactly when position
`j` of the peer's send plan is the peer's own domestic index of the same
global row: `masterCopyIdx`. -/
theorem masterCopyIdx_eq_sendIdx (ovr ovm : Overlap) (r : Nat)
    {d : Int} {j : Nat}
    (hjlen : j < (indicesRecvBuffOf ovr ovm r).length)
    (ht : (indicesRecvBuffOf ovr ovm r).getD j 0 = d)
    (hginv : ∀ g ∈ sendGlobalIndices ovm r,
      ovr.domesticToGlobal (ovr.globalToDomestic g) = g) :
    masterCopyIdx ovr ovm d = (indicesSendBuffOf ovm r).getD j 0 := by
  have hjg : j < (sendGlobalIndices ovm r).length := by
    rw [← length_indicesRecvBuffOf ovr ovm r]
    exact hjlen
  have hg : ovr.globalToDomestic ((sendGlobalIndices ovm r).getD j 0) = d := by
    rw [← getD_indicesRecvBuffOf ovr ovm r hjg]
    exact ht
  have hback : ovr.domesticToGlobal d = (sendGlobalIndices ovm r).getD j 0 := by
    rw [← hg]
    exact hginv _ (getD_mem_of_lt hjg)
  rw [masterCopyIdx, hback, getD_indicesSendBuffOf ovm r hjg]

/-- After the whole-world `assign`+`sync`, every domestic row of rank `r`
holds the value its master rank assigned (from the master's own native
vector) to the master's copy of that row. -/
theorem assignSync_get_eq_master_assigned
    (ov : Nat → Overlap) (native : Nat → List Int) (r : Nat)
    (hpnd : (ov r).peerSet.Nodup)
    (hselfr : r ∉ (ov r).peerSet)
    (hnodup : ∀ p ∈ (ov r).peerSet, (indicesRecvBuffOf (ov r) (ov p) r).Nodup)
    (hrng : ∀ p ∈ (ov r).peerSet, ∀ i ∈ indicesRecvBuffOf (ov r) (ov p) r,
      0 ≤ i ∧ i.toNat < (ov r).numDomestic)
    (hginv : ∀ p ∈ (ov r).peerSet, ∀ g ∈ sendGlobalIndices (ov p) r,
      (ov r).domesticToGlobal ((ov r).globalToDomestic g) = g)
    (hdinv : ∀ d : Nat, d < (ov r).numDomestic →
      (ov r).globalToDomestic ((ov r).domesticToGlobal (Int.ofNat d))
        = Int.ofNat d)
    (hcov : ∀ d : Nat, d < (ov r).numDomestic →
      (ov r).masterRank (Int.ofNat d) ≠ r →
      (ov r).masterRank (Int.ofNat d) ∈ (ov r).peerSet ∧
        Int.ofNat d ∈ indicesRecvBuffOf (ov r)
          (ov ((ov r).masterRank (Int.ofNat d))) r) :
    ∀ d : Nat, d < (ov r).numDomestic →
      vecGet (assignSyncAll ov native r) (Int.ofNat d)
        = vecGet (assignLocal (ov ((ov r).masterRank (Int.ofNat d)))
            (native ((ov r).masterRank (Int.ofNat d))))
            (masterCopyIdx (ov r) (ov ((ov r).masterRank (Int.ofNat d)))
              (Int.ofNat d)) := by
  intro d hd
  by_cases hm : (ov r).masterRank (Int.ofNat d) = r
  · rw [hm]
    have hmci : masterCopyIdx (ov r) (ov r) (Int.ofNat d) = Int.ofNat d :=
      hdinv d hd
    rw [hmci]
    exact syncOnce_frame_local ov (fun m => assignLocal (ov m) (native m)) r
      (Int.ofNat_nonneg d) hm hselfr
      (fun q hq i hi => (hrng q hq i hi).1)
  · obtain ⟨hmp, hcovm⟩ := hcov d hd hm
    unfold assignSyncAll
    exact syncOnce_get_overlap_master ov
      (fun m => assignLocal (ov m) (native m)) r rfl hmp hpnd
      (hnodup _ hmp) (fun q hq i hi => (hrng q hq i hi).1) hcovm
      (Int.ofNat_nonneg d)
      (by rw [length_assignLocal]; simpa using hd)
      (hginv _ hmp)

theorem getD_assignTo (ov : Overlap) (x : List Int) {n : Nat}
    (hn : n < ov.numNative) :
    (assignTo ov x).getD n 0
      = if ov.nativeToDomestic (Int.ofNat n) < 0 then 0
        else vecGet x (ov.nativeToDomestic (Int.ofNat n)) := by
  rw [List.getD_eq_getElem _ _ (by simpa [assignTo] using hn)]
  simp [assignTo]

/-! ### C5 -/

/-- C5: `assign(V)` first sets every domestic row `d` to
`V[domesticToNative(d)]` when the translation is non-negative and to zero
when it is negative (first conjunct), then invokes `sync()`
(`assignSyncAll` is by definition the local copy followed by the world
`sync()` round); afterwards every domestic row of rank `r` equals the value
the row's master rank holds, after the same round, in its own copy of the
row (second conjunct). -/
theorem assign_then_sync_master_consistent
    (ov : Nat → Overlap) (native : Nat → List Int) (r : Nat)
    (hpnd : (ov r).peerSet.Nodup)
    (hselfr : r ∉ (ov r).peerSet)
    (hself : ∀ p ∈ (ov r).peerSet, p ∉ (ov p).peerSet)
    (hnodup : ∀ p ∈ (ov r).peerSet, (indicesRecvBuffOf (ov r) (ov p) r).Nodup)
    (hrng : ∀ p ∈ (ov r).peerSet, ∀ i ∈ indicesRecvBuffOf (ov r) (ov p) r,
      0 ≤ i ∧ i.toNat < (ov r).numDomestic)
    (hpeer_nn : ∀ p ∈ (ov r).peerSet, ∀ q ∈ (ov p).peerSet,
      ∀ i ∈ indicesRecvBuffOf (ov p) (ov q) p, 0 ≤ i)
    (hsend_nn : ∀ p ∈ (ov r).peerSet, ∀ i ∈ indicesSendBuffOf (ov p) r, 0 ≤ i)
    (hmaster : ∀ p ∈ (ov r).peerSet, ∀ j,
      j < (indicesRecvBuffOf (ov r) (ov p) r).length →
      (ov r).masterRank ((indicesRecvBuffOf (ov r) (ov p) r).getD j 0) = p →
      (ov p).masterRank ((indicesSendBuffOf (ov p) r).getD j 0) = p)
    (hginv : ∀ p ∈ (ov r).peerSet, ∀ g ∈ sendGlobalIndices (ov p) r,
      (ov r).domesticToGlobal ((ov r).globalToDomestic g) = g)
    (hdinv : ∀ d : Nat, d < (ov r).numDomestic →
      (ov r).globalToDomestic ((ov r).domesticToGlobal (Int.ofNat d))
        = Int.ofNat d)
    (hcov : ∀ d : Nat, d < (ov r).numDomestic →
      (ov r).masterRank (Int.ofNat d) ≠ r →
      (ov r).masterRank (Int.ofNat d) ∈ (ov r).peerSet ∧
        Int.ofNat d ∈ indicesRecvBuffOf (ov r)
          (ov ((ov r).masterRank (Int.ofNat d))) r) :
    (∀ d : Nat, d < (ov r).numDomestic →
      (assignLocal (ov r) (native r)).getD d 0
        = if (ov r).domesticToNative (Int.ofNat d) < 0 then 0
          else (native r).getD ((ov r).domesticToNative (Int.ofNat d)).toNat 0) ∧
    (∀ d : Nat, d < (ov r).numDomestic →
      vecGet (assignSyncAll ov native r) (Int.ofNat d)
        = vecGet (assignSyncAll ov native ((ov r).masterRank (Int.ofNat d)))
            (masterCopyIdx (ov r) (ov ((ov r).masterRank (Int.ofNat d)))
              (Int.ofNat d))) := by
  constructor
  · intro d hd
    exact getD_assignLocal (ov r) (native r) hd
  · intro d hd
    rw [assignSync_get_eq_master_assigned ov native r hpnd hselfr hnodup hrng
      hginv hdinv hcov d hd]
    by_cases hm : (ov r).masterRank (Int.ofNat d) = r
    · rw [hm]
      have hmci : masterCopyIdx (ov r) (ov r) (Int.ofNat d) = Int.ofNat d :=
        hdinv d hd
      rw [hmci]
      exact (syncOnce_frame_local ov (fun q => assignLocal (ov q) (native q))
        r (Int.ofNat_nonneg d) hm hselfr
        (fun q hq i hi => (hrng q hq i hi).1)).symm
    · obtain ⟨hmp, hcovm⟩ := hcov d hd hm
      obtain ⟨j, hjlen, hjval⟩ := List.mem_iff_getElem.mp hcovm
      have ht : (indicesRecvBuffOf (ov r)
          (ov ((ov r).masterRank (Int.ofNat d))) r).getD j 0 = Int.ofNat d := by
        rw [List.getD_eq_getElem _ _ hjlen]
        exact hjval
      have hmci := masterCopyIdx_eq_sendIdx (ov r)
        (ov ((ov r).masterRank (Int.ofNat d))) r hjlen ht
        (hginv _ hmp)
      have hjs : j < (indicesSendBuffOf
          (ov ((ov r).masterRank (Int.ofNat d))) r).length := by
        rw [length_indicesSendBuffOf,
          ← length_indicesRecvBuffOf (ov r) (ov ((ov r).masterRank (Int.ofNat d))) r]
        exact hjlen
      have hguard : (ov r).masterRank ((indicesRecvBuffOf (ov r)
          (ov ((ov r).masterRank (Int.ofNat d))) r).getD j 0)
          = (ov r).masterRank (Int.ofNat d) := by
        rw [ht]
      have hm2 := hmaster _ hmp j hjlen hguard
      have hsnn := hsend_nn _ hmp _ (getD_mem_of_lt hjs)
      rw [hmci]
      exact (syncOnce_frame_local ov (fun q => assignLocal (ov q) (native q))
        ((ov r).masterRank (Int.ofNat d)) hsnn hm2 (hself _ hmp)
        (hpeer_nn _ hmp)).symm

/-! ### C7 -/

/-- C7: for every native vector family agreeing across processes on shared
rows (`hcoh`), `assign(V)` followed by `assignTo(W)` on rank `r` reproduces
`V` at every native index: the local copy places `V[n]` at the domestic row,
the `sync()` round replaces overlap rows by the master's copy of the very
value the master assigned from its own native vector, and `assignTo`
projects it back. -/
theorem assign_assignTo_roundtrip
    (ov : Nat → Overlap) (native : Nat → List Int) (r : Nat)
    (hpnd : (ov r).peerSet.Nodup)
    (hselfr : r ∉ (ov r).peerSet)
    (hnodup : ∀ p ∈ (ov r).peerSet, (indicesRecvBuffOf (ov r) (ov p) r).Nodup)
    (hrng : ∀ p ∈ (ov r).peerSet, ∀ i ∈ indicesRecvBuffOf (ov r) (ov p) r,
      0 ≤ i ∧ i.toNat < (ov r).numDomestic)
    (hginv : ∀ p ∈ (ov r).peerSet, ∀ g ∈ sendGlobalIndices (ov p) r,
      (ov r).domesticToGlobal ((ov r).globalToDomestic g) = g)
    (hdinv : ∀ d : Nat, d < (ov r).numDomestic →
      (ov r).globalToDomestic ((ov r).domesticToGlobal (Int.ofNat d))
        = Int.ofNat d)
    (hcov : ∀ d : Nat, d < (ov r).numDomestic →
      (ov r).masterRank (Int.ofNat d) ≠ r →
      (ov r).masterRank (Int.ofNat d) ∈ (ov r).peerSet ∧
        Int.ofNat d ∈ indicesRecvBuffOf (ov r)
          (ov ((ov r).masterRank (Int.ofNat d))) r)
    (hnat : ∀ n : Nat, n < (ov r).numNative →
      0 ≤ (ov r).nativeToDomestic (Int.ofNat n) ∧
      ((ov r).nativeToDomestic (Int.ofNat n)).toNat < (ov r).numDomestic)
    (hcoh : ∀ n : Nat, n < (ov r).numNative →
      vecGet (assignLocal
          (ov ((ov r).masterRank ((ov r).nativeToDomestic (Int.ofNat n))))
          (native ((ov r).masterRank ((ov r).nativeToDomestic (Int.ofNat n)))))
        (masterCopyIdx (ov r)
          (ov ((ov r).masterRank ((ov r).nativeToDomestic (Int.ofNat n))))
          ((ov r).nativeToDomestic (Int.ofNat n)))
        = (native r).getD n 0) :
    ∀ n : Nat, n < (ov r).numNative →
      (assignTo (ov r) (assignSyncAll ov native r)).getD n 0
        = (native r).getD n 0 := by
  intro n hn
  obtain ⟨hd0, hdlt⟩ := hnat n hn
  rw [getD_assignTo (ov r) _ hn, if_neg (not_lt.mpr hd0)]
  have hofnat : Int.ofNat ((ov r).nativeToDomestic (Int.ofNat n)).toNat
      = (ov r).nativeToDomestic (Int.ofNat n) :=
    Int.toNat_of_nonneg hd0
  rw [← hofnat,
    assignSync_get_eq_master_assigned ov native r hpnd hselfr hnodup hrng
      hginv hdinv hcov _ hdlt]
  have hc := hcoh n hn
  rw [← hofnat] at hc
  exact hc

/-! ### A concrete two-process world for the distributed witnesses -/

/-- Rank `0` of the two-process witness world: it owns global rows `0` and
`1` and shadows global row `2` (its domestic row `2`), which rank `1`
masters; it sends its domestic row `1` (global `1`) to rank `1`. -/
def ovrW0 : Overlap where
  numDomestic := 3
  numNative := 3
  domesticToNative := fun d => if 0 ≤ d ∧ d < 3 then d else -1
  nativeToDomestic := fun n => if 0 ≤ n ∧ n < 3 then n else -1
  domesticToGlobal := fun d => d
  globalToDomestic := fun g => if 0 ≤ g ∧ g < 3 then g else -1
  peerSet := [1]
  foreignOverlapSize := fun p => if p = 1 then 1 else 0
  foreignOverlapOffsetToDomesticIdx := fun _ _ => 1
  masterRank := fun d => if d = 2 then 1 else 0
  isBorderWith := fun _ _ => false
  isLocal := fun d => decide (d ≠ 2)

/-- Rank `1` of the two-process witness world: its domestic row `0` shadows
global row `1` (mastered by rank `0`) and its domestic row `1` is global row
`2`, which it masters and sends to rank `0`. -/
def ovrW1 : Overlap where
  numDomestic := 2
  numNative := 2
  domesticToNative := fun d => if 0 ≤ d ∧ d < 2 then d else -1
  nativeToDomestic := fun n => if 0 ≤ n ∧ n < 2 then n else -1
  domesticToGlobal := fun d => d + 1
  globalToDomestic := fun g => if 1 ≤ g ∧ g < 3 then g - 1 else -1
  peerSet := [0]
  foreignOverlapSize := fun p => if p = 0 then 1 else 0
  foreignOverlapOffsetToDomesticIdx := fun _ _ => 1
  masterRank := fun d => if d = 0 then 0 else 1
  isBorderWith := fun _ _ => false
  isLocal := fun d => decide (d = 1)

/-- The descriptor family of the two-process witness world. -/
def ovrW : Nat → Overlap := fun r => if r = 0 then ovrW0 else ovrW1

/-- Pre-call vectors of the witness world. -/
def vecrW : Nat → List Int := fun r => if r = 0 then [10, 20, 99] else [55, 30]

/-- Native vectors of the witness world, coherent on the shared rows
(global row `1` is `20` on both sides, global row `2` is `30`). -/
def natrW : Nat → List Int := fun r => if r = 0 then [10, 20, 30] else [20, 30]

/-- Witness for C8: in the concrete two-process world a second `sync()`
round leaves rank `0`'s vector exactly as the first round left it. -/
theorem sync_idempotent_witness :
    (ovrW 0).peerSet.Nodup ∧
    syncOnce ovrW (syncOnce ovrW vecrW) 0 = syncOnce ovrW vecrW 0 :=
  ⟨by decide, sync_idempotent ovrW vecrW 0 (by decide) (by decide) (by decide)
    (by decide) (by decide) (by decide) (by decide)⟩

/-- Witness for C5: after the world `assign`+`sync`, rank `1`'s overlap row
`0` equals the copy its master (rank `0`) holds of the same global row. -/
theorem assign_then_sync_master_consistent_witness :
    0 < (ovrW 1).numDomestic ∧
    vecGet (assignSyncAll ovrW natrW 1) (Int.ofNat 0)
      = vecGet (assignSyncAll ovrW natrW ((ovrW 1).masterRank (Int.ofNat 0)))
          (masterCopyIdx (ovrW 1) (ovrW ((ovrW 1).masterRank (Int.ofNat 0)))
            (Int.ofNat 0)) :=
  ⟨by decide,
    (assign_then_sync_master_consistent ovrW natrW 1 (by decide) (by decide)
      (by decide) (by decide) (by decide) (by decide) (by decide) (by decide)
      (by decide) (by decide) (by decide)).2 0 (by decide)⟩

/-- Witness for C7: on rank `1`, `assign` followed by `assignTo` reproduces
the native value at native row `0` — the row whose domestic counterpart is
mastered by rank `0`. -/
theorem assign_assignTo_roundtrip_witness :
    0 < (ovrW 1).numNative ∧
    (assignTo (ovrW 1) (assignSyncAll ovrW natrW 1)).getD 0 0
      = (natrW 1).getD 0 0 :=
  ⟨by decide,
    assign_assignTo_roundtrip ovrW natrW 1 (by decide) (by decide) (by decide)
      (by decide) (by decide) (by decide) (by decide) (by decide) (by decide)
      0 (by decide)⟩

end OverlapVec
